import Mathlib

/-!
Verification development for the wally repository.

Shallow embedding conventions:
* Python `datetime` values are modelled as `Int` instants (a totally ordered
  clock); only comparisons and a fixed subtraction are ever performed on them.
* Python strings that undergo character-level transformations (the jid/pacs
  handle codecs, chat bodies fed to the command grammar) are modelled as
  `List Nat` of Unicode code points; strings used only for equality tests
  (event kinds, show-states, XML tags) are modelled as `String`.
* The per-person dictionary `PS360.users` and the dirty set `users_to_upload`
  are modelled as functions `Nat → Option User` and `Nat → Bool`.
* Remote calls are modelled by passing in the data they would return
  (the list of orders a poll sees, the SignOut result, the roster presence
  dictionary) and, where the claim is about effects, by returning the list of
  calls or store writes the code would issue.
-/

namespace Wally

/-! ## ps360.py: constants and data model -/

def SEARCH_PREVIOUS_MINUTES : Int := 60

def SESSION_DURATION_SECONDS : Int := 24 * 60 * 60

def POLLING_INTERVAL_SECONDS : Int := 60

/-- `class EventType(StrEnum)` in ps360.py. -/
inductive EventType where
  | SIGN
  | EDIT
  | QUEUE_FOR_SIGNATURE
  | OVERREAD
deriving DecidableEq

/-- `EventType(event.Type)` with the `except ValueError` treated as `none`:
the StrEnum constructor by value. -/
def EventType.ofString : String → Option EventType
  | "Sign" => some EventType.SIGN
  | "Edit" => some EventType.EDIT
  | "QueueForSignature" => some EventType.QUEUE_FOR_SIGNATURE
  | "Overread" => some EventType.OVERREAD
  | _ => none

/-- `@dataclass UserLastEvent` in ps360.py. -/
structure UserLastEvent where
  event_type : EventType
  timestamp : Int
  workstation : String
  additional_info : String
deriving DecidableEq

/-- `@dataclass User` in ps360.py. -/
structure User where
  id : Nat
  name : String
  last_event : UserLastEvent
deriving DecidableEq

/-- One element of the `GetReportEvents` response: the fields of `event`
read by `get_latest_orders` (`event.Type`, `event.EventTime`,
`event.Workstation`, `event.AdditionalInfo`, `event.Account.ID`,
`event.Account.Name`). -/
structure RawEvent where
  eventTypeRaw : String
  eventTime : Int
  workstation : String
  additionalInfo : String
  accountId : Nat
  accountName : String
deriving DecidableEq

/-- One element of the `BrowseOrders` response: `report.LastModifiedDate`
plus the events `GetReportEvents` returns for it (`none` models the RPC
returning `None`). -/
structure Order where
  lastModifiedDate : Int
  events : Option (List RawEvent)
deriving DecidableEq

/-- The mutable per-process index of `PS360`: the dictionary `self.users`
and the per-cycle dirty set `users_to_upload`. -/
structure IndexState where
  users : Nat → Option User
  dirty : Nat → Bool

def initIndex : IndexState where
  users := fun _ => none
  dirty := fun _ => false

/-- The body of the inner `for event in events` loop of
`PS360.get_latest_orders`: parse the event type (skip on `ValueError`),
build `last_event`, then either overwrite the existing entry when the new
timestamp is strictly greater (`continue` otherwise, skipping the dirty-set
insertion) or create a fresh `User` on `KeyError`; in both non-skip branches
add the user id to `users_to_upload`. -/
def processEvent (t : IndexState) (e : RawEvent) : IndexState :=
  match EventType.ofString e.eventTypeRaw with
  | none => t
  | some et =>
    match t.users e.accountId with
    | some u =>
      if u.last_event.timestamp < e.eventTime then
        { users := fun i => if i = e.accountId then
            some { u with last_event := UserLastEvent.mk et e.eventTime e.workstation e.additionalInfo }
          else t.users i
        , dirty := fun i => if i = e.accountId then true else t.dirty i }
      else t
    | none =>
      { users := fun i => if i = e.accountId then
          some (User.mk e.accountId e.accountName
            (UserLastEvent.mk et e.eventTime e.workstation e.additionalInfo))
        else t.users i
      , dirty := fun i => if i = e.accountId then true else t.dirty i }

/-- The engine state of `PS360` relevant to polling: the watermark
`self.last_updated` and the index. -/
structure EngineState where
  lastUpdated : Int
  index : IndexState

/-- `PS360.__init__`: `self.last_updated = datetime.now().astimezone() -
timedelta(minutes=SEARCH_PREVIOUS_MINUTES)` together with the initially
empty `users` dictionary. -/
def PS360_init (now : Int) : EngineState :=
  { lastUpdated := now - SEARCH_PREVIOUS_MINUTES
  , index := initIndex }

/-- The body of the outer `for report in response` loop of
`PS360.get_latest_orders`: advance the watermark when
`report.LastModifiedDate > self.last_updated`, then fold the report events
(if any) into the index. -/
def processOrder (s : EngineState) (o : Order) : EngineState :=
  { lastUpdated := if s.lastUpdated < o.lastModifiedDate then o.lastModifiedDate else s.lastUpdated
  , index := (o.events.getD []).foldl processEvent s.index }

/-- The state effect of one `PS360.get_latest_orders` call, given the order
list the `BrowseOrders` RPC returned. -/
def get_latest_orders (s : EngineState) (orders : List Order) : EngineState :=
  orders.foldl processOrder s

/-- A sequence of poll cycles of the inner `while` loop of
`PS360.main_loop`, each given the orders its `BrowseOrders` call returned. -/
def run_poll_cycles (s : EngineState) (cycles : List (List Order)) : EngineState :=
  cycles.foldl get_latest_orders s

/-- The row `get_latest_orders` flushes for one user id at the end of a
cycle: present exactly when the id is in `users_to_upload`, and then equal to
the `executemany` tuple `(event_type, timestamp, workstation, userId)`. -/
def flushRow (t : IndexState) (userId : Nat) : Option (EventType × Int × String × Nat) :=
  if t.dirty userId then
    match t.users userId with
    | some u => some (u.last_event.event_type, u.last_event.timestamp, u.last_event.workstation, userId)
    | none => none
  else none

/-- `EventType(event.Type)` succeeds. -/
def recognized (e : RawEvent) : Bool := (EventType.ofString e.eventTypeRaw).isSome

/-- All events delivered by a list of orders, in processing sequence. -/
def allEvents : List Order → List RawEvent
  | [] => []
  | o :: os => o.events.getD [] ++ allEvents os

/-- The recognized activity events delivered for person `p` by a list of
orders. -/
def recognizedFor (p : Nat) (orders : List Order) : List RawEvent :=
  (allEvents orders).filter (fun e => e.accountId == p && recognized e)

/-- The effect of one iteration of the inner event loop of
`get_latest_orders` on the pair (`self.users[userId]`,
`userId in users_to_upload`) of the own account of the event, mirroring
`processEvent` at one person. -/
def mergeStep (acc : Option User × Bool) (e : RawEvent) : Option User × Bool :=
  match EventType.ofString e.eventTypeRaw with
  | none => acc
  | some et =>
    match acc.1 with
    | some u =>
      if u.last_event.timestamp < e.eventTime then
        (some { u with last_event := UserLastEvent.mk et e.eventTime e.workstation e.additionalInfo }, true)
      else acc
    | none =>
      (some (User.mk e.accountId e.accountName
        (UserLastEvent.mk et e.eventTime e.workstation e.additionalInfo)), true)

/-- The last-writer-wins merge of `get_latest_orders` restricted to the
`last_event` field. -/
def lweStep (a : UserLastEvent) (e : RawEvent) : UserLastEvent :=
  match EventType.ofString e.eventTypeRaw with
  | none => a
  | some et =>
    if a.timestamp < e.eventTime then
      UserLastEvent.mk et e.eventTime e.workstation e.additionalInfo
    else a

/-! ## ps360.py: session logout -/

/-- The `PS360` session state touched by `logout`: `self._account_session`
(its text when present). -/
structure PS360Session where
  accountSession : Option String
deriving DecidableEq

/-- A remote call issued against the reporting endpoint. -/
inductive RemoteCall where
  | signOut (sessionId : String)
deriving DecidableEq

/-- `PS360.logout`: when `self._account_session is None` nothing happens;
otherwise a `SignOut` call carrying the session is issued, and the session
is cleared only when the call returns a truthy result (`signOutResult`). -/
def logout (signOutResult : Bool) (s : PS360Session) : PS360Session × List RemoteCall :=
  match s.accountSession with
  | none => (s, [])
  | some sessionId =>
    (if signOutResult then { accountSession := none } else s, [RemoteCall.signOut sessionId])

/-! ## xmpp.py: presence model -/

/-- `class Presence(enum.StrEnum)` in xmpp.py. -/
inductive Presence where
  | AVAILABLE
  | AWAY
  | BUSY
  | OFFLINE
deriving DecidableEq

/-- One value of the roster presence dictionary: the `presence['show']`
field read by `presence_from_dict`. -/
structure ResourcePresence where
  showState : String
deriving DecidableEq

/-- `presence_from_dict` in xmpp.py: `next(iter(d.values()))` takes the
first entry of the dictionary (StopIteration on an empty dictionary maps to
`OFFLINE`), then the `match presence['show']` table. -/
def presence_from_dict (d : List (String × ResourcePresence)) : Presence :=
  match d with
  | [] => Presence.OFFLINE
  | (_, p) :: _ =>
    if p.showState = "" then Presence.AVAILABLE
    else if p.showState = "away" then Presence.AWAY
    else if p.showState = "dnd" then Presence.BUSY
    else Presence.OFFLINE

/-- Modelled from the claim wording, for comparison with
`presence_from_dict`: the four-valued table on an optional show-state, with
`none` standing for the complete absence of presence data. -/
def specPresenceTable (showState : Option String) : Presence :=
  match showState with
  | none => Presence.OFFLINE
  | some s =>
    if s = "" then Presence.AVAILABLE
    else if s = "away" then Presence.AWAY
    else if s = "dnd" then Presence.BUSY
    else Presence.OFFLINE

/-! ## xmpp.py: jid/pacs handle codecs (strings as code-point lists) -/

def isUpperLetter (c : Nat) : Bool := decide (65 ≤ c ∧ c ≤ 90)

def isLowerLetter (c : Nat) : Bool := decide (97 ≤ c ∧ c ≤ 122)

/-- `re.sub(r'([A-Z])', lambda m: '|' + m.group(1).lower(), pacs)`:
each capital letter becomes 124 (the separator) followed by its lowercase
form (code + 32). -/
def jidLocalEncode : List Nat → List Nat
  | [] => []
  | c :: cs =>
    if isUpperLetter c then 124 :: (c + 32) :: jidLocalEncode cs
    else c :: jidLocalEncode cs

/-- The appended domain `'@cdhb'`. -/
def jidSuffix : List Nat := [64, 99, 100, 104, 98]

/-- `generate_jid` in xmpp.py. -/
def generate_jid (pacs : List Nat) : List Nat :=
  jidLocalEncode pacs ++ jidSuffix

/-- `re.sub(r'\|([a-z])', lambda m: m.group(1).upper(), ...)`: left-to-right
non-overlapping replacement of separator-plus-lowercase-letter by the
uppercase letter (code - 32). -/
def pacsDecode : List Nat → List Nat
  | [] => []
  | [c] => [c]
  | c :: d :: cs =>
    if c = 124 ∧ isLowerLetter d then (d - 32) :: pacsDecode cs
    else c :: pacsDecode (d :: cs)

/-- `generate_pacs` in xmpp.py: `jid.split('@')[0]` then the substitution. -/
def generate_pacs (jid : List Nat) : List Nat :=
  pacsDecode (jid.takeWhile (fun c => c ≠ 64))

/-! ## xmpp.py: presence mirroring into the store -/

/-- A row of the `users` table, restricted to the columns touched by the
presence path. -/
structure StoreRow where
  pacs : List Nat
  pacs_presence : Presence
  pacs_last_updated : Int
deriving DecidableEq

/-- The effect of the SQL
`update users set pacs_presence=%s, pacs_last_updated=now()
 where pacs=%s and pacs_presence<>%s` on one row. -/
def updateRowPresence (now : Int) (newPresence : Presence) (pacs : List Nat) (r : StoreRow) : StoreRow :=
  if r.pacs = pacs ∧ r.pacs_presence ≠ newPresence then
    { r with pacs_presence := newPresence, pacs_last_updated := now }
  else r

/-- `XMPP.on_changed_status` in xmpp.py: resolve the pacs code from the bare
jid, map the roster presence dictionary, and run the guarded update over the
table. -/
def on_changed_status (now : Int) (jid : List Nat)
    (rosterPresence : List (String × ResourcePresence)) (rows : List StoreRow) : List StoreRow :=
  rows.map (updateRowPresence now (presence_from_dict rosterPresence) (generate_pacs jid))

/-- The actions `XMPP.main_loop` performs, in order, up to its first
`connect` (presence notifications can only arrive after `connect`). -/
inductive XmppAction where
  | resetAllOffline
  | connect
deriving DecidableEq

/-- `XMPP_RESET_PRESENCE = (environ.get('XMPP_RESET_PRESENCE', 'False') == 'True')`. -/
def parseResetPresenceFlag (envValue : Option String) : Bool :=
  (envValue.getD "False") == "True"

/-- The start of `XMPP.main_loop` in xmpp.py: the
`update users set pacs_presence='Offline'` statement runs only when
`XMPP_RESET_PRESENCE` is true, and then before the first `connect`. -/
def main_loop_start (resetPresence : Bool) : List XmppAction :=
  (if resetPresence then [XmppAction.resetAllOffline] else []) ++ [XmppAction.connect]

/-- The effect of `update users set pacs_presence='Offline'` (no `where`
clause) on the table. -/
def applyResetAllOffline (rows : List StoreRow) : List StoreRow :=
  rows.map (fun r => { r with pacs_presence := Presence.OFFLINE })

/-! ## xmpp.py: message handling and the command grammar -/

/-- An XML element of a message, identified by its namespaced tag. -/
structure XmlElement where
  tag : String
deriving DecidableEq

def orderContainer2Tag : String :=
  "\x7bcom.intelerad.viewer.im.extensions.orderContainer2\x7dorderContainer"

def orderContainerTag : String :=
  "\x7bcom.intelerad.viewer.im.extensions.orderContainer\x7dorderContainer"

def phoneRequestActionTag : String :=
  "\x7bcom.intelerad.viewer.im.extensions.phoneRequestAction\x7dphoneRequestAction"

/-- An inbound message: its type, body and XML children. -/
structure Message where
  mtype : String
  body : List Nat
  xmlElems : List XmlElement
deriving DecidableEq

/-- `msg.xml.find(tag)`: the first child with the given tag. -/
def xmlFind (elems : List XmlElement) (t : String) : Option XmlElement :=
  elems.find? (fun e => e.tag == t)

/-- The `payload = next((p for p in (...) if p is not None), None)` scan of
`XMPP.on_message_received`: the first of the three finds that succeeds. -/
def findPayload (m : Message) : Option XmlElement :=
  match xmlFind m.xmlElems orderContainer2Tag with
  | some p => some p
  | none =>
    match xmlFind m.xmlElems orderContainerTag with
    | some p => some p
    | none => xmlFind m.xmlElems phoneRequestActionTag

/-- The reply `XMPP.on_message_received` sends: its body and re-attached
payload. -/
structure Reply where
  body : List Nat
  payload : Option XmlElement
deriving DecidableEq

/-- `XMPP.on_message_received` in xmpp.py. Non-chat messages are ignored.
For chat messages, the reply body is the original body when a recognized
payload is present (which is then re-attached), and otherwise the text of
`generate_response`; the latter is abstracted by the oracle `respond`
because its value depends on database state. -/
def on_message_received (respond : Message → List Nat) (m : Message) : Option Reply :=
  if m.mtype = "chat" then
    some
      { body :=
          match findPayload m with
          | some _ => m.body
          | none => respond m
      , payload := findPayload m }
  else none

/-- Python `str.strip` whitespace test, for the characters that can occur in
chat bodies. -/
def isSpaceChar (c : Nat) : Bool :=
  c = 32 || c = 9 || c = 10 || c = 13 || c = 11 || c = 12

/-- Python `str.strip()`. -/
def pyStrip (l : List Nat) : List Nat :=
  ((l.dropWhile isSpaceChar).reverse.dropWhile isSpaceChar).reverse

/-- Python `str.lower()` on one character, for the ASCII range involved. -/
def pyLowerChar (c : Nat) : Nat :=
  if isUpperLetter c then c + 32 else c

/-- Python `str.lower()`. -/
def pyLower (l : List Nat) : List Nat := l.map pyLowerChar

/-- "roster" -/
def rosterWord : List Nat := [114, 111, 115, 116, 101, 114]

/-- "meetings" -/
def meetingsWord : List Nat := [109, 101, 101, 116, 105, 110, 103, 115]

/-- "tomorrow" -/
def tomorrowWord : List Nat := [116, 111, 109, 111, 114, 114, 111, 119]

/-- `re.search(r"^word(.*)$", msg, re.IGNORECASE)` for a lowercase-letter
literal `word`, returning `group(1)`: the word must match case-insensitively
at the start of the string, and because `.` does not match a newline and the
stripped string has no trailing newline, `$` forces the remainder to be
newline-free; `group(1)` is then the whole remainder. -/
def regexSearchAnchored (word msg : List Nat) : Option (List Nat) :=
  if pyLower (msg.take word.length) = word ∧ ¬ 10 ∈ msg.drop word.length
  then some (msg.drop word.length)
  else none

/-- The outcome of the command grammar of `XMPP.generate_response`. -/
inductive Command where
  | roster (customUser : Option (List Nat)) (tomorrow : Bool)
  | meetings (tomorrow : Bool)
  | help
deriving DecidableEq

/-- The parsing decisions of `XMPP.generate_response` in xmpp.py:
`message = msg['body'].strip()`, then the roster branch
(`group(1).strip().lower() == 'tomorrow'` sets the tomorrow flag, otherwise
`custom_user = roster_match.group(1).strip() or None`), then the meetings
branch, then the help text. -/
def parseCommand (body : List Nat) : Command :=
  match regexSearchAnchored rosterWord (pyStrip body) with
  | some g1 =>
    if pyLower (pyStrip g1) = tomorrowWord then Command.roster none true
    else
      match pyStrip g1 with
      | [] => Command.roster none false
      | cu => Command.roster (some cu) false
  | none =>
    match regexSearchAnchored meetingsWord (pyStrip body) with
    | some g1 => Command.meetings (pyLower (pyStrip g1) == tomorrowWord)
    | none => Command.help

/-! ## Concrete fixtures used by witness instantiations -/

/-- Fixture: an indexed user with a recorded event at timestamp 10. -/
def wUser : User :=
  { id := 7, name := "Alice"
  , last_event :=
      { event_type := EventType.SIGN, timestamp := 10, workstation := "ws1", additional_info := "a" } }

/-- Fixture: an index holding `wUser` and an empty dirty set. -/
def wIndex : IndexState :=
  { users := fun i => if i = 7 then some wUser else none
  , dirty := fun _ => false }

/-- Fixture: a re-delivered event older than the entry of `wUser`. -/
def wStale : RawEvent :=
  { eventTypeRaw := "Sign", eventTime := 9, workstation := "ws2", additionalInfo := "b"
  , accountId := 7, accountName := "Alice" }

/-- Fixture: one order delivering only `wStale`. -/
def wOrdersStale : List Order := [{ lastModifiedDate := 50, events := some [wStale] }]

/-- Fixture: an early event for person 7. -/
def wEvA : RawEvent :=
  { eventTypeRaw := "Sign", eventTime := 5, workstation := "ws1", additionalInfo := "a"
  , accountId := 7, accountName := "Alice" }

/-- Fixture: a later event for person 7. -/
def wEvB : RawEvent :=
  { eventTypeRaw := "Edit", eventTime := 9, workstation := "ws2", additionalInfo := "b"
  , accountId := 7, accountName := "Alice" }

/-- Fixture: one order delivering `wEvA` then `wEvB`. -/
def wOrdersMerge : List Order := [{ lastModifiedDate := 100, events := some [wEvA, wEvB] }]

/-! ## Theorems -/

/-- Claim C6: the presence mapping function is exactly the four-valued table:
an empty show-state maps to Available, "away" to Away, "dnd" to Busy, and any
other show-state or the complete absence of presence data maps to Offline. -/
theorem C6_presence_mapping :
    ∀ d : List (String × ResourcePresence),
      presence_from_dict d = specPresenceTable (d.head?.map (fun x => x.2.showState)) := by
  intro d
  cases d with
  | nil => rfl
  | cons hd tl =>
    obtain ⟨r, p⟩ := hd
    rfl

/-- Claim C9: logout is idempotent: with no active session it performs no
remote call and leaves the session state unchanged, and a second logout after
a successful one is a no-op. -/
theorem C9_logout_idempotent :
    ∀ (s : PS360Session) (r : Bool),
      (s.accountSession = none → logout r s = (s, [])) ∧
      logout r (logout true s).1 = ((logout true s).1, []) := by
  intro s r
  obtain ⟨a⟩ := s
  constructor
  · intro h
    cases a with
    | none => rfl
    | some sid => exact absurd h (by simp)
  · cases a with
    | none => rfl
    | some sid => rfl

/-- Witness for C9 at a concrete session state. -/
theorem C9_logout_idempotent_witness :
    logout false { accountSession := none } = ({ accountSession := none }, []) :=
  (C9_logout_idempotent { accountSession := none } false).1 rfl

/-- Claim C2, counterexample: with the default environment
(`XMPP_RESET_PRESENCE` unset, hence false), `XMPP.main_loop` performs no
presence reset before connecting, contradicting the claim that on process
start all presences are set to Offline. -/
theorem C2_reset_counterexample :
    parseResetPresenceFlag none = false ∧
    main_loop_start (parseResetPresenceFlag none) = [XmppAction.connect] ∧
    XmppAction.resetAllOffline ∉ main_loop_start (parseResetPresenceFlag none) := by
  decide

/-- Claim C2 as amended: when the `XMPP_RESET_PRESENCE` flag is true,
the reset to Offline is the first action of `main_loop`, before the
connection is opened (and hence before any presence notification), and
the reset sets every row of the store to Offline. -/
theorem C2_reset_amended (flag : Bool) (h : flag = true) :
    main_loop_start flag = [XmppAction.resetAllOffline, XmppAction.connect] ∧
    ∀ rows : List StoreRow, ∀ r ∈ applyResetAllOffline rows, r.pacs_presence = Presence.OFFLINE := by
  subst h
  refine ⟨rfl, ?_⟩
  intro rows r hr
  simp only [applyResetAllOffline, List.mem_map] at hr
  obtain ⟨a, _, rfl⟩ := hr
  rfl

/-- Witness for C2 with the flag enabled. -/
theorem C2_reset_amended_witness :
    main_loop_start true = [XmppAction.resetAllOffline, XmppAction.connect] :=
  (C2_reset_amended true rfl).1

/-- Claim C7: a presence-change notification writes to the store only when
the newly mapped presence differs from the stored presence of the resolved
person; when they are equal, every row is left unchanged. -/
theorem C7_presence_write_skip (now : Int) (jid : List Nat)
    (rp : List (String × ResourcePresence)) (rows : List StoreRow)
    (h : ∀ r ∈ rows, r.pacs = generate_pacs jid → r.pacs_presence = presence_from_dict rp) :
    on_changed_status now jid rp rows = rows ∧
    ∀ r ∈ rows,
      updateRowPresence now (presence_from_dict rp) (generate_pacs jid) r ≠ r →
      r.pacs = generate_pacs jid ∧ r.pacs_presence ≠ presence_from_dict rp := by
  constructor
  · unfold on_changed_status
    induction rows with
    | nil => rfl
    | cons r rs ih =>
      have hr : updateRowPresence now (presence_from_dict rp) (generate_pacs jid) r = r := by
        unfold updateRowPresence
        rw [if_neg]
        rintro ⟨h1, h2⟩
        exact h2 (h r (by simp) h1)
      simp only [List.map_cons, hr]
      rw [ih (fun x hx => h x (by simp [hx]))]
  · intro r hr hne
    by_cases hc : r.pacs = generate_pacs jid ∧ r.pacs_presence ≠ presence_from_dict rp
    · exact hc
    · exact absurd (by unfold updateRowPresence; rw [if_neg hc]) hne

/-- Witness for C7: a store whose only matching row already holds the mapped
presence is returned unchanged. -/
theorem C7_presence_write_skip_witness :
    on_changed_status 3 [] [] [{ pacs := [], pacs_presence := Presence.OFFLINE, pacs_last_updated := 0 }]
      = [{ pacs := [], pacs_presence := Presence.OFFLINE, pacs_last_updated := 0 }] :=
  (C7_presence_write_skip 3 [] []
    [{ pacs := [], pacs_presence := Presence.OFFLINE, pacs_last_updated := 0 }]
    (by decide)).1

/-- Claim C8: an inbound one-to-one chat message carrying a recognized
structured payload is echoed: the reply body equals the original body with
the same payload re-attached, for every possible command-responder outcome
(so the command grammar is never consulted) and every text body. -/
theorem C8_payload_echo (respond : Message → List Nat) (m : Message) (p : XmlElement)
    (hchat : m.mtype = "chat") (hp : findPayload m = some p) :
    on_message_received respond m = some { body := m.body, payload := some p } := by
  unfold on_message_received
  rw [if_pos hchat, hp]

/-- Witness for C8: a concrete chat message with a phone-request payload. -/
theorem C8_payload_echo_witness :
    on_message_received (fun _ => [])
      { mtype := "chat", body := [104, 105], xmlElems := [{ tag := phoneRequestActionTag }] }
      = some { body := [104, 105], payload := some { tag := phoneRequestActionTag } } :=
  C8_payload_echo (fun _ => [])
    { mtype := "chat", body := [104, 105], xmlElems := [{ tag := phoneRequestActionTag }] }
    { tag := phoneRequestActionTag } rfl (by decide)

/-- The watermark after one poll cycle is the fold of the per-order
advancement rule over the order modification dates alone. -/
theorem lastUpdated_get_latest_orders (orders : List Order) :
    ∀ s : EngineState,
      (get_latest_orders s orders).lastUpdated =
        (orders.map Order.lastModifiedDate).foldl (fun w d => if w < d then d else w) s.lastUpdated := by
  induction orders with
  | nil => intro s; rfl
  | cons o os ih =>
    intro s
    show (get_latest_orders (processOrder s o) os).lastUpdated = _
    rw [ih]
    rfl

/-- The per-order advancement rule never decreases the accumulator. -/
theorem wm_foldl_mono (l : List Int) :
    ∀ w : Int, w ≤ l.foldl (fun w d => if w < d then d else w) w := by
  induction l with
  | nil => intro w; simp
  | cons d l ih =>
    intro w
    refine le_trans ?_ (ih _)
    dsimp only
    split <;> omega

/-- Claim C3: the watermark is monotonically non-decreasing across every
sequence of poll cycles (including empty ones), is initialised at process
start to the current time minus the 60-minute lookback window, and is
advanced per order seen, depending only on the order modification dates and
not on the events extracted. -/
theorem C3_watermark (now : Int) (s : EngineState) (cycles : List (List Order)) :
    s.lastUpdated ≤ (run_poll_cycles s cycles).lastUpdated ∧
    (PS360_init now).lastUpdated = now - 60 ∧
    (∀ orders orders' : List Order,
      orders.map Order.lastModifiedDate = orders'.map Order.lastModifiedDate →
      ∀ t : EngineState,
        (get_latest_orders t orders).lastUpdated = (get_latest_orders t orders').lastUpdated) := by
  refine ⟨?_, rfl, ?_⟩
  · induction cycles generalizing s with
    | nil => simp [run_poll_cycles]
    | cons c cs ih =>
      have h1 : s.lastUpdated ≤ (get_latest_orders s c).lastUpdated := by
        rw [lastUpdated_get_latest_orders]
        exact wm_foldl_mono _ _
      exact le_trans h1 (ih (get_latest_orders s c))
  · intro orders orders' hdates t
    rw [lastUpdated_get_latest_orders, lastUpdated_get_latest_orders, hdates]

/-- Witness for C3 at a concrete cycle sequence: one cycle whose single
order carries an earlier modification date than the watermark. -/
theorem C3_watermark_witness :
    ({ lastUpdated := 7, index := initIndex } : EngineState).lastUpdated ≤
      (run_poll_cycles { lastUpdated := 7, index := initIndex }
        [[{ lastModifiedDate := 3, events := none }], []]).lastUpdated ∧
    (PS360_init 100).lastUpdated = 100 - 60 ∧
    (∀ orders orders' : List Order,
      orders.map Order.lastModifiedDate = orders'.map Order.lastModifiedDate →
      ∀ t : EngineState,
        (get_latest_orders t orders).lastUpdated = (get_latest_orders t orders').lastUpdated) :=
  C3_watermark 100 { lastUpdated := 7, index := initIndex }
    [[{ lastModifiedDate := 3, events := none }], []]

/-- `split('@')[0]` on a local part (free of `'@'`) followed by the domain
suffix recovers the local part. -/
theorem takeWhile_local_suffix :
    ∀ lp : List Nat, (∀ c ∈ lp, c ≠ 64) →
      (lp ++ jidSuffix).takeWhile (fun c => c ≠ 64) = lp := by
  intro lp
  induction lp with
  | nil => intro _; rfl
  | cons c cs ih =>
    intro h
    have hc : c ≠ 64 := h c (List.mem_cons_self c cs)
    simp only [List.cons_append, List.takeWhile_cons]
    rw [if_pos (decide_eq_true hc)]
    rw [ih (fun x hx => h x (List.mem_cons_of_mem c hx))]

/-- Re-encoding a decoded local part made of lowercase letters and the
separator restores it. -/
theorem jidLocalEncode_pacsDecode (lp : List Nat)
    (h : ∀ c ∈ lp, isLowerLetter c = true ∨ c = 124) :
    jidLocalEncode (pacsDecode lp) = lp := by
  induction lp using pacsDecode.induct with
  | case1 => rfl
  | case2 c =>
    have hc := h c (by simp)
    simp only [pacsDecode, jidLocalEncode]
    rw [if_neg (by simp only [isUpperLetter, isLowerLetter, decide_eq_true_eq] at hc ⊢; omega)]
  | case3 c d cs hcond ih =>
    obtain ⟨hc, hd⟩ := hcond
    have hdr : 97 ≤ d ∧ d ≤ 122 := by simpa [isLowerLetter] using hd
    have ihr := ih (fun x hx => h x (by simp [hx]))
    simp only [pacsDecode, if_pos (And.intro hc hd), jidLocalEncode]
    rw [if_pos (by simp only [isUpperLetter, decide_eq_true_eq]; omega)]
    rw [ihr, hc]
    have hdd : d - 32 + 32 = d := by omega
    rw [hdd]
  | case4 c d cs hcond ih =>
    have hc := h c (by simp)
    have ihr := ih (fun x hx => h x (by simp at hx ⊢; tauto))
    simp only [pacsDecode, if_neg hcond, jidLocalEncode]
    rw [if_neg (by simp only [isUpperLetter, isLowerLetter, decide_eq_true_eq] at hc ⊢; omega)]
    rw [ihr]

/-- Claim C4, counterexample: the handle `"Ab"` is composed of letters only,
yet converting it to the internal code and back yields `"|ab@cdhb"`, not
`"Ab"`: the codec appends the domain suffix and lowercases capitals, so the
roundtrip fails on handles without the suffix or with capital letters. -/
theorem C4_roundtrip_counterexample :
    (∀ c ∈ ([65, 98] : List Nat), (isUpperLetter c || isLowerLetter c) = true) ∧
    generate_jid (generate_pacs [65, 98]) ≠ [65, 98] := by
  decide

/-- Claim C4 as amended: for every external handle of the form
`local ++ "@cdhb"` whose local part is composed of lowercase letters and the
separator `'|'`, converting the handle to the internal code and back
restores it: `generate_jid (generate_pacs h) = h`. -/
theorem C4_roundtrip (lp : List Nat)
    (h : ∀ c ∈ lp, isLowerLetter c = true ∨ c = 124) :
    generate_jid (generate_pacs (lp ++ jidSuffix)) = lp ++ jidSuffix := by
  have h64 : ∀ c ∈ lp, c ≠ 64 := by
    intro c hc
    rcases h c hc with h1 | h1
    · simp only [isLowerLetter, decide_eq_true_eq] at h1
      omega
    · omega
  unfold generate_pacs generate_jid
  rw [takeWhile_local_suffix lp h64, jidLocalEncode_pacsDecode lp h]

/-- Witness for C4 at the concrete handle `"a|b@cdhb"`. -/
theorem C4_roundtrip_witness :
    generate_jid (generate_pacs (([97, 124, 98] : List Nat) ++ jidSuffix)) =
      [97, 124, 98] ++ jidSuffix :=
  C4_roundtrip [97, 124, 98] (by decide)

/-- `processEvent` localized at one person: it acts at the account of the
event through `mergeStep` and leaves every other person untouched. -/
theorem processEvent_at (t : IndexState) (e : RawEvent) (p : Nat) :
    ((processEvent t e).users p, (processEvent t e).dirty p) =
      if e.accountId = p then mergeStep (t.users p, t.dirty p) e
      else (t.users p, t.dirty p) := by
  unfold processEvent mergeStep
  cases hof : EventType.ofString e.eventTypeRaw with
  | none =>
    dsimp only
    split <;> rfl
  | some et =>
    dsimp only
    by_cases hp : e.accountId = p
    · subst hp
      rw [if_pos rfl]
      cases hu : t.users e.accountId with
      | some u =>
        dsimp only
        by_cases hlt : u.last_event.timestamp < e.eventTime
        · rw [if_pos hlt, if_pos hlt]
          dsimp only
          rw [if_pos rfl, if_pos rfl]
        · rw [if_neg hlt, if_neg hlt]
          rw [hu]
      | none =>
        dsimp only
        rw [if_pos rfl, if_pos rfl]
    · rw [if_neg hp]
      have hps : ¬ p = e.accountId := fun hh => hp hh.symm
      cases hu : t.users e.accountId with
      | some u =>
        dsimp only
        by_cases hlt : u.last_event.timestamp < e.eventTime
        · rw [if_pos hlt]
          dsimp only
          rw [if_neg hps, if_neg hps]
        · rw [if_neg hlt]
      | none =>
        dsimp only
        rw [if_neg hps, if_neg hps]

/-- Folding the events of a cycle through `processEvent`, observed at one
person, is the `mergeStep` fold of the events of that person. -/
theorem foldl_processEvent_at (evs : List RawEvent) :
    ∀ (t : IndexState) (p : Nat),
      ((evs.foldl processEvent t).users p, (evs.foldl processEvent t).dirty p) =
        (evs.filter (fun e => e.accountId == p)).foldl mergeStep (t.users p, t.dirty p) := by
  induction evs with
  | nil => intro t p; rfl
  | cons e evs ih =>
    intro t p
    rw [List.foldl_cons, List.filter_cons, ih (processEvent t e) p, processEvent_at t e p]
    by_cases hp : e.accountId = p
    · rw [if_pos hp, if_pos (by simpa using hp), List.foldl_cons]
    · rw [if_neg hp, if_neg (by simpa using hp)]

/-- The index after one `get_latest_orders` call is the `processEvent` fold
of all delivered events. -/
theorem index_get_latest_orders (orders : List Order) :
    ∀ s : EngineState,
      (get_latest_orders s orders).index = (allEvents orders).foldl processEvent s.index := by
  induction orders with
  | nil => intro s; rfl
  | cons o os ih =>
    intro s
    show (get_latest_orders (processOrder s o) os).index = _
    rw [ih]
    show (allEvents os).foldl processEvent ((o.events.getD []).foldl processEvent s.index) = _
    simp only [allEvents]
    rw [List.foldl_append]

/-- `mergeStep` ignores events of unrecognized kind. -/
theorem foldl_mergeStep_filter_recognized (l : List RawEvent) :
    ∀ acc : Option User × Bool,
      l.foldl mergeStep acc = (l.filter (fun e => recognized e)).foldl mergeStep acc := by
  induction l with
  | nil => intro acc; rfl
  | cons e l ih =>
    intro acc
    rw [List.foldl_cons, List.filter_cons]
    by_cases hr : recognized e = true
    · rw [if_pos (by simpa using hr), List.foldl_cons, ih]
    · have hnone : EventType.ofString e.eventTypeRaw = none := by
        unfold recognized at hr
        cases hof : EventType.ofString e.eventTypeRaw with
        | none => rfl
        | some et => rw [hof] at hr; exact absurd rfl hr
      have hstep : mergeStep acc e = acc := by unfold mergeStep; rw [hnone]
      rw [if_neg (by simpa using hr), hstep, ih]

/-- Filtering by person and then by recognition is the `recognizedFor`
filter. -/
theorem filter_accountId_recognized (l : List RawEvent) (p : Nat) :
    (l.filter (fun e => e.accountId == p)).filter (fun e => recognized e) =
      l.filter (fun e => e.accountId == p && recognized e) := by
  induction l with
  | nil => rfl
  | cons e l ih =>
    by_cases h1 : (e.accountId == p) = true <;> by_cases h2 : recognized e = true <;>
      simp [List.filter_cons, h1, h2, ih]

/-- A `mergeStep` fold from an existing entry keeps the identity fields and
folds the `last_event` field through `lweStep`; the dirty flag never drops
back to `false`. -/
theorem foldl_mergeStep_some (ds : List RawEvent) :
    ∀ (u : User) (b : Bool), ∃ b' : Bool,
      ds.foldl mergeStep (some u, b) =
        (some (User.mk u.id u.name (ds.foldl lweStep u.last_event)), b') ∧
      (b = true → b' = true) := by
  induction ds with
  | nil =>
    intro u b
    exact ⟨b, rfl, fun h => h⟩
  | cons e ds ih =>
    intro u b
    rw [List.foldl_cons, List.foldl_cons]
    cases hof : EventType.ofString e.eventTypeRaw with
    | none =>
      have h1 : mergeStep (some u, b) e = (some u, b) := by unfold mergeStep; rw [hof]
      have h2 : lweStep u.last_event e = u.last_event := by unfold lweStep; rw [hof]
      rw [h1, h2]
      exact ih u b
    | some et =>
      by_cases hlt : u.last_event.timestamp < e.eventTime
      · have h1 : mergeStep (some u, b) e =
            (some { u with last_event := UserLastEvent.mk et e.eventTime e.workstation e.additionalInfo }, true) := by
          unfold mergeStep; rw [hof]; dsimp only; rw [if_pos hlt]
        have h2 : lweStep u.last_event e =
            UserLastEvent.mk et e.eventTime e.workstation e.additionalInfo := by
          unfold lweStep; rw [hof]; dsimp only; rw [if_pos hlt]
        rw [h1, h2]
        obtain ⟨b', hb', hbi⟩ :=
          ih { u with last_event := UserLastEvent.mk et e.eventTime e.workstation e.additionalInfo } true
        exact ⟨b', hb', fun _ => hbi rfl⟩
      · have h1 : mergeStep (some u, b) e = (some u, b) := by
          unfold mergeStep; rw [hof]; dsimp only; rw [if_neg hlt]
        have h2 : lweStep u.last_event e = u.last_event := by
          unfold lweStep; rw [hof]; dsimp only; rw [if_neg hlt]
        rw [h1, h2]
        exact ih u b

/-- A `mergeStep` fold over events none of which is strictly newer than the
existing entry leaves the entry and the dirty flag unchanged. -/
theorem foldl_mergeStep_stale (u : User) (b : Bool) :
    ∀ ds : List RawEvent, (∀ e ∈ ds, e.eventTime ≤ u.last_event.timestamp) →
      ds.foldl mergeStep (some u, b) = (some u, b) := by
  intro ds
  induction ds with
  | nil => intro _; rfl
  | cons e ds ih =>
    intro h
    have h1 : mergeStep (some u, b) e = (some u, b) := by
      unfold mergeStep
      cases hof : EventType.ofString e.eventTypeRaw with
      | none => rfl
      | some et =>
        dsimp only
        rw [if_neg (by have := h e (List.mem_cons_self e ds); omega)]
    rw [List.foldl_cons, h1, ih (fun x hx => h x (List.mem_cons_of_mem e hx))]

/-- One `lweStep` never decreases the timestamp. -/
theorem lweStep_le (a : UserLastEvent) (e : RawEvent) :
    a.timestamp ≤ (lweStep a e).timestamp := by
  unfold lweStep
  cases hof : EventType.ofString e.eventTypeRaw with
  | none => exact le_refl _
  | some et =>
    dsimp only
    by_cases hlt : a.timestamp < e.eventTime
    · rw [if_pos hlt]
      exact le_of_lt hlt
    · rw [if_neg hlt]

/-- A recognized event folded in never ends up newer than the result. -/
theorem lweStep_event_le (a : UserLastEvent) (e : RawEvent) (hrec : recognized e = true) :
    e.eventTime ≤ (lweStep a e).timestamp := by
  unfold recognized at hrec
  obtain ⟨et, hof⟩ := Option.isSome_iff_exists.mp hrec
  unfold lweStep
  rw [hof]
  dsimp only
  by_cases hlt : a.timestamp < e.eventTime
  · rw [if_pos hlt]
  · rw [if_neg hlt]
    omega

/-- The `lweStep` fold never decreases the timestamp. -/
theorem foldl_lweStep_le (ds : List RawEvent) :
    ∀ a : UserLastEvent, a.timestamp ≤ (ds.foldl lweStep a).timestamp := by
  induction ds with
  | nil => intro a; exact le_refl _
  | cons e ds ih =>
    intro a
    rw [List.foldl_cons]
    exact le_trans (lweStep_le a e) (ih (lweStep a e))

/-- Every recognized event of the list has a timestamp bounded by the
`lweStep` fold result. -/
theorem foldl_lweStep_max (ds : List RawEvent) :
    ∀ a : UserLastEvent, ∀ e ∈ ds, recognized e = true →
      e.eventTime ≤ (ds.foldl lweStep a).timestamp := by
  induction ds with
  | nil => intro a e he; exact absurd he (List.not_mem_nil e)
  | cons e2 ds ih =>
    intro a e he hrec
    rw [List.foldl_cons]
    rcases List.mem_cons.mp he with rfl | he'
    · exact le_trans (lweStep_event_le a e hrec) (foldl_lweStep_le ds (lweStep a e))
    · exact ih (lweStep a e2) e he' hrec

/-- The `lweStep` fold result is the initial entry or the projection of one
of the recognized events of the list. -/
theorem foldl_lweStep_mem (ds : List RawEvent) :
    ∀ a : UserLastEvent,
      ds.foldl lweStep a = a ∨
      ∃ e ∈ ds, ∃ et, EventType.ofString e.eventTypeRaw = some et ∧
        ds.foldl lweStep a = UserLastEvent.mk et e.eventTime e.workstation e.additionalInfo := by
  induction ds with
  | nil => intro a; exact Or.inl rfl
  | cons e ds ih =>
    intro a
    rw [List.foldl_cons]
    rcases ih (lweStep a e) with h | ⟨e', he', et', hof', heq'⟩
    · rw [h]
      unfold lweStep
      cases hof : EventType.ofString e.eventTypeRaw with
      | none => exact Or.inl rfl
      | some et =>
        dsimp only
        by_cases hlt : a.timestamp < e.eventTime
        · rw [if_pos hlt]
          exact Or.inr ⟨e, List.mem_cons_self e ds, et, hof, rfl⟩
        · rw [if_neg hlt]
          exact Or.inl rfl
    · exact Or.inr ⟨e', List.mem_cons_of_mem e he', et', hof', heq'⟩

/-- Membership in `recognizedFor` gives the account and recognition facts. -/
theorem mem_recognizedFor (p : Nat) (orders : List Order) (x : RawEvent)
    (hx : x ∈ recognizedFor p orders) : x.accountId = p ∧ recognized x = true := by
  unfold recognizedFor at hx
  have h2 := (List.mem_filter.mp hx).2
  simp only [Bool.and_eq_true, beq_iff_eq] at h2
  exact h2

/-- Claim C5: processing an event whose timestamp is equal to or earlier
than the index entry of its person leaves the whole index state unchanged,
and a cycle delivering only such events for that person leaves the entry and
the dirty flag unchanged and flushes no row for that person. -/
theorem C5_stale_event_frame (t : IndexState) (e : RawEvent) (u : User) (p : Nat) (w : Int)
    (orders : List Order)
    (hid : e.accountId = p)
    (hu : t.users p = some u)
    (hts : e.eventTime ≤ u.last_event.timestamp)
    (hall : ∀ e2 ∈ allEvents orders, e2.accountId = p → e2.eventTime ≤ u.last_event.timestamp) :
    processEvent t e = t ∧
    (get_latest_orders { lastUpdated := w, index := t } orders).index.users p = some u ∧
    (get_latest_orders { lastUpdated := w, index := t } orders).index.dirty p = t.dirty p ∧
    (t.dirty p = false →
      flushRow (get_latest_orders { lastUpdated := w, index := t } orders).index p = none) := by
  have h1 : processEvent t e = t := by
    unfold processEvent
    cases hof : EventType.ofString e.eventTypeRaw with
    | none => rfl
    | some et =>
      dsimp only
      rw [hid, hu]
      dsimp only
      rw [if_neg (by omega)]
  have hpair :
      ((get_latest_orders { lastUpdated := w, index := t } orders).index.users p,
       (get_latest_orders { lastUpdated := w, index := t } orders).index.dirty p) =
        (some u, t.dirty p) := by
    rw [index_get_latest_orders, foldl_processEvent_at]
    show ((allEvents orders).filter (fun x => x.accountId == p)).foldl mergeStep
      (t.users p, t.dirty p) = _
    rw [hu]
    apply foldl_mergeStep_stale
    intro e2 he2
    have hm := List.mem_filter.mp he2
    exact hall e2 hm.1 (by simpa using hm.2)
  have h2 : (get_latest_orders { lastUpdated := w, index := t } orders).index.users p = some u :=
    congrArg Prod.fst hpair
  have h3 : (get_latest_orders { lastUpdated := w, index := t } orders).index.dirty p = t.dirty p :=
    congrArg Prod.snd hpair
  refine ⟨h1, h2, h3, ?_⟩
  intro hd
  unfold flushRow
  rw [h3, hd]
  simp

/-- Witness for C5 at the concrete fixtures. -/
theorem C5_stale_event_frame_witness :
    processEvent wIndex wStale = wIndex ∧
    (get_latest_orders { lastUpdated := 0, index := wIndex } wOrdersStale).index.users 7 = some wUser ∧
    (get_latest_orders { lastUpdated := 0, index := wIndex } wOrdersStale).index.dirty 7 = wIndex.dirty 7 ∧
    (wIndex.dirty 7 = false →
      flushRow (get_latest_orders { lastUpdated := 0, index := wIndex } wOrdersStale).index 7 = none) :=
  C5_stale_event_frame wIndex wStale wUser 7 0 wOrdersStale rfl (by decide) (by decide) (by decide)

/-- Claim C1: for every list of orders and every person, provided distinct
delivered events for the person carry distinct timestamps (re-delivered
copies are equal), the row flushed for that person after the cycle carries
exactly the data of the maximum-timestamp recognized event delivered for
that person, in whatever arrival order and with whatever re-delivery the
events came. -/
theorem C1_merge_latest_event (orders : List Order) (p : Nat) (now : Int)
    (hne : recognizedFor p orders ≠ [])
    (hinj : ∀ e1 ∈ recognizedFor p orders, ∀ e2 ∈ recognizedFor p orders,
      e1.eventTime = e2.eventTime → e1 = e2) :
    ∀ e ∈ recognizedFor p orders,
      (∀ e2 ∈ recognizedFor p orders, e2.eventTime ≤ e.eventTime) →
      ∃ et, EventType.ofString e.eventTypeRaw = some et ∧
        flushRow (get_latest_orders (PS360_init now) orders).index p =
          some (et, e.eventTime, e.workstation, p) := by
  intro e he hemax
  have hpair :
      ((get_latest_orders (PS360_init now) orders).index.users p,
       (get_latest_orders (PS360_init now) orders).index.dirty p) =
        (recognizedFor p orders).foldl mergeStep (none, false) := by
    rw [index_get_latest_orders, foldl_processEvent_at]
    show ((allEvents orders).filter (fun x => x.accountId == p)).foldl mergeStep (none, false) = _
    rw [foldl_mergeStep_filter_recognized, filter_accountId_recognized]
    rfl
  obtain ⟨e0, rest, hds⟩ : ∃ e0 rest, recognizedFor p orders = e0 :: rest := by
    cases hcase : recognizedFor p orders with
    | nil => exact absurd hcase hne
    | cons a l => exact ⟨a, l, rfl⟩
  have he0mem : e0 ∈ recognizedFor p orders := by
    rw [hds]; exact List.mem_cons_self e0 rest
  obtain ⟨hid0, hrec0⟩ := mem_recognizedFor p orders e0 he0mem
  obtain ⟨et0, hof0⟩ := Option.isSome_iff_exists.mp (by unfold recognized at hrec0; exact hrec0)
  have hstep0 : mergeStep (none, false) e0 =
      (some (User.mk e0.accountId e0.accountName
        (UserLastEvent.mk et0 e0.eventTime e0.workstation e0.additionalInfo)), true) := by
    unfold mergeStep
    rw [hof0]
  rw [hds, List.foldl_cons, hstep0] at hpair
  obtain ⟨b', hb', hbi⟩ := foldl_mergeStep_some rest
    (User.mk e0.accountId e0.accountName
      (UserLastEvent.mk et0 e0.eventTime e0.workstation e0.additionalInfo)) true
  rw [hb'] at hpair
  dsimp only at hpair
  have hbtrue : b' = true := hbi rfl
  have hrest_mem : ∀ x ∈ rest, x ∈ recognizedFor p orders := fun x hx => by
    rw [hds]; exact List.mem_cons_of_mem e0 hx
  have hLmax : ∀ x ∈ recognizedFor p orders,
      x.eventTime ≤ (rest.foldl lweStep
        (UserLastEvent.mk et0 e0.eventTime e0.workstation e0.additionalInfo)).timestamp := by
    intro x hx
    rw [hds] at hx
    rcases List.mem_cons.mp hx with rfl | hx'
    · exact foldl_lweStep_le rest
        (UserLastEvent.mk et0 x.eventTime x.workstation x.additionalInfo)
    · exact foldl_lweStep_max rest _ x hx' (mem_recognizedFor p orders x (hrest_mem x hx')).2
  have hstar : ∃ estar ∈ recognizedFor p orders, ∃ etstar,
      EventType.ofString estar.eventTypeRaw = some etstar ∧
      rest.foldl lweStep (UserLastEvent.mk et0 e0.eventTime e0.workstation e0.additionalInfo) =
        UserLastEvent.mk etstar estar.eventTime estar.workstation estar.additionalInfo := by
    rcases foldl_lweStep_mem rest
        (UserLastEvent.mk et0 e0.eventTime e0.workstation e0.additionalInfo) with
      h | ⟨e', he', et', hof', heq'⟩
    · exact ⟨e0, he0mem, et0, hof0, h⟩
    · exact ⟨e', hrest_mem e' he', et', hof', heq'⟩
  obtain ⟨estar, hstarmem, etstar, hofstar, hLeq⟩ := hstar
  have hts_eq : estar.eventTime = e.eventTime := by
    have hx1 : e.eventTime ≤ (rest.foldl lweStep
        (UserLastEvent.mk et0 e0.eventTime e0.workstation e0.additionalInfo)).timestamp :=
      hLmax e he
    have hx2 : estar.eventTime ≤ e.eventTime := hemax estar hstarmem
    rw [hLeq] at hx1
    dsimp only at hx1
    omega
  have hee : estar = e := hinj estar hstarmem e he hts_eq
  subst hee
  refine ⟨etstar, hofstar, ?_⟩
  have h2 : (get_latest_orders (PS360_init now) orders).index.users p =
      some (User.mk e0.accountId e0.accountName
        (rest.foldl lweStep (UserLastEvent.mk et0 e0.eventTime e0.workstation e0.additionalInfo))) :=
    congrArg Prod.fst hpair
  have h3 : (get_latest_orders (PS360_init now) orders).index.dirty p = true := by
    have hsnd : (get_latest_orders (PS360_init now) orders).index.dirty p = b' :=
      congrArg Prod.snd hpair
    rw [hsnd, hbtrue]
  unfold flushRow
  rw [h3, h2, if_pos rfl]
  dsimp only
  rw [hLeq]

/-- Witness for C1 at the concrete fixtures: the row flushed for person 7
carries the data of `wEvB`, the later of the two delivered events. -/
theorem C1_merge_latest_event_witness :
    ∃ et, EventType.ofString wEvB.eventTypeRaw = some et ∧
      flushRow (get_latest_orders (PS360_init 0) wOrdersMerge).index 7 =
        some (et, wEvB.eventTime, wEvB.workstation, 7) :=
  C1_merge_latest_event wOrdersMerge 7 0 (by decide) (by decide) wEvB (by decide) (by decide)

/-- Claim C10, counterexample: the chat body `"roster\nb"` begins with
`"roster"` yet is not treated as a roster command (the anchored pattern
cannot cross the newline, so the body falls through to the help text). -/
theorem C10_prefix_counterexample :
    pyLower ((pyStrip ([114, 111, 115, 116, 101, 114, 10, 98] : List Nat)).take 6) = rosterWord ∧
    ¬ ∃ cu t, parseCommand [114, 111, 115, 116, 101, 114, 10, 98] = Command.roster cu t := by
  constructor
  · decide
  · rintro ⟨cu, t, h⟩
    have hh : parseCommand [114, 111, 115, 116, 101, 114, 10, 98] = Command.help := by decide
    rw [hh] at h
    exact Command.noConfusion h

/-- Claim C10 as amended: any chat body whose stripped form begins
case-insensitively with `"roster"` and has no newline in the remainder is
treated as a roster command (no whitespace after the keyword is required:
`"rostertomorrow"` behaves exactly like `"roster tomorrow"`, and
`"rosterbob"` is a lookup with argument `"bob"`); likewise any such body
beginning with `"meetings"` is treated as a meetings command. -/
theorem C10_prefix_grammar :
    (∀ body : List Nat,
      pyLower ((pyStrip body).take 6) = rosterWord →
      ¬ 10 ∈ (pyStrip body).drop 6 →
      ∃ cu t, parseCommand body = Command.roster cu t) ∧
    (parseCommand (rosterWord ++ tomorrowWord) = Command.roster none true ∧
     parseCommand (rosterWord ++ 32 :: tomorrowWord) = Command.roster none true) ∧
    parseCommand (rosterWord ++ [98, 111, 98]) = Command.roster (some [98, 111, 98]) false ∧
    (∀ body : List Nat,
      pyLower ((pyStrip body).take 8) = meetingsWord →
      ¬ 10 ∈ (pyStrip body).drop 8 →
      ∃ t, parseCommand body = Command.meetings t) := by
  refine ⟨?_, ⟨by decide, by decide⟩, by decide, ?_⟩
  · intro body h1 h2
    have hm : regexSearchAnchored rosterWord (pyStrip body) =
        some ((pyStrip body).drop rosterWord.length) := by
      unfold regexSearchAnchored
      rw [if_pos ⟨h1, h2⟩]
    unfold parseCommand
    rw [hm]
    dsimp only
    by_cases hT : pyLower (pyStrip ((pyStrip body).drop rosterWord.length)) = tomorrowWord
    · rw [if_pos hT]
      exact ⟨none, true, rfl⟩
    · rw [if_neg hT]
      cases hcu : pyStrip ((pyStrip body).drop rosterWord.length) with
      | nil => exact ⟨none, false, rfl⟩
      | cons c cs => exact ⟨some (c :: cs), false, rfl⟩
  · intro body h1 h2
    have hr : regexSearchAnchored rosterWord (pyStrip body) = none := by
      unfold regexSearchAnchored
      rw [if_neg]
      rintro ⟨ha, _⟩
      have ha6 : pyLower ((pyStrip body).take 6) = rosterWord := ha
      have hb : (pyLower ((pyStrip body).take 8)).take 6 = pyLower ((pyStrip body).take 6) := by
        unfold pyLower
        rw [← List.map_take, List.take_take]
        norm_num
      rw [h1, ha6] at hb
      exact absurd hb (by decide)
    have hm : regexSearchAnchored meetingsWord (pyStrip body) =
        some ((pyStrip body).drop meetingsWord.length) := by
      unfold regexSearchAnchored
      rw [if_pos ⟨h1, h2⟩]
    unfold parseCommand
    rw [hr]
    dsimp only
    rw [hm]
    exact ⟨_, rfl⟩

/-- Witness for C10: the body `"rosterx"` is parsed as a roster command. -/
theorem C10_prefix_grammar_witness :
    ∃ cu t, parseCommand (rosterWord ++ [120]) = Command.roster cu t :=
  C10_prefix_grammar.1 (rosterWord ++ [120]) (by decide) (by decide)

end Wally
